import Mathlib

/-!
Verification of the authoritative snake-game server (`server.js`, the
express/socket.io world simulation).  The definitions below are a shallow
embedding of the server's game-state model and of the functions named by
the specification: angles and coordinates are modelled as exact rationals
(`ℚ`), `Math.random()` as an explicit stream of rationals, `Date.now()` as
an explicit `now` parameter, and the float remainder operator `%` as the
truncated remainder on `ℚ`.
-/

namespace SnakeServer

/-! ## Game constants (server.js lines 20–69) -/

def WORLD_WIDTH : ℚ := 3000
def WORLD_HEIGHT : ℚ := 3000
def WORLD_GROUND_Z : ℚ := 0
def WORM_INITIAL_LENGTH : ℕ := 100
def WORM_SEGMENT_RADIUS : ℚ := 8
def WORM_SPEED : ℚ := 2
def WORM_TURN_SPEED : ℚ := 1/20
def FOOD_RADIUS : ℚ := 12
def MAX_FOOD : ℕ := 50
def FOOD_SCORE : ℤ := 5
def FOOD_DROP_CHANCE : ℚ := 3/5
def FOOD_DROP_INTERVAL : ℕ := 5
def MIN_FOOD_SPAWN_DISTANCE_SQ : ℚ := (FOOD_RADIUS * 4)^2
def FOOD_IMAGE_TYPES : ℤ := 36
def FOOD_TYPE_POWER : ℤ := 15
def FOOD_TYPE_ZOOM : ℤ := 12
def FOOD_TYPE_MAGNET : ℤ := 7
def SPEED_BOOST_FACTOR : ℚ := 8/5
def POWER_UP_DURATION_MS : ℚ := 10000
def MAGNET_RADIUS_MULTIPLIER : ℚ := 6

/-- The exact rational value of the IEEE-754 double `Math.PI`. -/
def mathPi : ℚ := 884279719003555 / 281474976710656

lemma mathPi_pos : 0 < mathPi := by norm_num [mathPi]

lemma mathPi_gt_three : 3 < mathPi := by norm_num [mathPi]

lemma mathPi_lt_four : mathPi < 4 := by norm_num [mathPi]

/-! ## JavaScript numeric primitives -/

/-- JavaScript truncation toward zero (used by the `%` operator). -/
def jsTrunc (q : ℚ) : ℤ := if q < 0 then ⌈q⌉ else ⌊q⌋

/-- The JavaScript remainder operator `a % b`: `a - b * trunc (a / b)`. -/
def jsMod (a b : ℚ) : ℚ := a - b * jsTrunc (a / b)

/-- `Math.sign`. -/
def jsSign (q : ℚ) : ℚ := if 0 < q then 1 else if q < 0 then -1 else 0

/-- First normalization loop of `updateWorm` (line 361):
`while (angleDiff <= -Math.PI) angleDiff += Math.PI * 2;`. -/
def wrapUp (x : ℚ) : ℚ :=
  if x ≤ -mathPi then wrapUp (x + mathPi * 2) else x
termination_by (⌈(mathPi - x) / (mathPi * 2)⌉).toNat
decreasing_by
  have h2 : (0:ℚ) < mathPi * 2 := by norm_num [mathPi]
  have key : (mathPi - (x + mathPi * 2)) / (mathPi * 2)
      = (mathPi - x) / (mathPi * 2) - 1 := by field_simp; ring
  have hge : (1:ℚ) ≤ (mathPi - x) / (mathPi * 2) := by
    rw [le_div_iff₀ h2]
    linarith [mathPi_pos]
  have hc : (1:ℤ) ≤ ⌈(mathPi - x) / (mathPi * 2)⌉ := by
    have := (Int.le_ceil ((mathPi - x) / (mathPi * 2))).trans' hge
    exact_mod_cast this
  simp only [key, Int.ceil_sub_one]
  omega

/-- Second normalization loop of `updateWorm` (line 362):
`while (angleDiff > Math.PI) angleDiff -= Math.PI * 2;`. -/
def wrapDown (x : ℚ) : ℚ :=
  if mathPi < x then wrapDown (x - mathPi * 2) else x
termination_by (⌈(x - mathPi) / (mathPi * 2)⌉).toNat
decreasing_by
  have h2 : (0:ℚ) < mathPi * 2 := by norm_num [mathPi]
  have key : (x - mathPi * 2 - mathPi) / (mathPi * 2)
      = (x - mathPi) / (mathPi * 2) - 1 := by field_simp; ring
  have hgt : (0:ℚ) < (x - mathPi) / (mathPi * 2) := by
    apply div_pos
    · linarith
    · norm_num [mathPi]
  have hc : (1:ℤ) ≤ ⌈(x - mathPi) / (mathPi * 2)⌉ := Int.ceil_pos.mpr hgt
  simp only [key, Int.ceil_sub_one]
  omega

/-- Lines 360–362 of `updateWorm`: the signed angular difference reduced by
the two `while` loops. -/
def wrapDiff (x : ℚ) : ℚ := wrapDown (wrapUp x)

lemma wrapUp_of_le {x : ℚ} (h : x ≤ -mathPi) :
    wrapUp x = wrapUp (x + mathPi * 2) := by
  rw [wrapUp]; simp [h]

lemma wrapUp_of_gt {x : ℚ} (h : -mathPi < x) : wrapUp x = x := by
  rw [wrapUp]; simp [not_le.mpr h]

lemma wrapDown_of_gt {x : ℚ} (h : mathPi < x) :
    wrapDown x = wrapDown (x - mathPi * 2) := by
  rw [wrapDown]; simp [h]

lemma wrapDown_of_le {x : ℚ} (h : x ≤ mathPi) : wrapDown x = x := by
  rw [wrapDown]; simp [not_lt.mpr h]

lemma wrapUp_gt (x : ℚ) : -mathPi < wrapUp x := by
  induction x using wrapUp.induct with
  | case1 x h ih => rw [wrapUp_of_le h]; exact ih
  | case2 x h => rw [wrapUp_of_gt (not_le.mp h)]; exact not_le.mp h

lemma wrapUp_le (x : ℚ) : x ≤ mathPi → wrapUp x ≤ mathPi := by
  induction x using wrapUp.induct with
  | case1 x h1 ih =>
      intro _
      rw [wrapUp_of_le h1]
      exact ih (by linarith [mathPi_pos])
  | case2 x h1 =>
      intro h
      rw [wrapUp_of_gt (not_le.mp h1)]; exact h

lemma wrapUp_sub (x : ℚ) : ∃ k : ℤ, wrapUp x = x + mathPi * 2 * k := by
  induction x using wrapUp.induct with
  | case1 x h1 ih =>
      obtain ⟨k, hk⟩ := ih
      exact ⟨k + 1, by rw [wrapUp_of_le h1, hk]; push_cast; ring⟩
  | case2 x h1 => exact ⟨0, by rw [wrapUp_of_gt (not_le.mp h1)]; push_cast; ring⟩

lemma wrapDown_le (x : ℚ) : wrapDown x ≤ mathPi := by
  induction x using wrapDown.induct with
  | case1 x h1 ih => rw [wrapDown_of_gt h1]; exact ih
  | case2 x h1 => rw [wrapDown_of_le (not_lt.mp h1)]; exact not_lt.mp h1

lemma wrapDown_gt (x : ℚ) : -mathPi < x → -mathPi < wrapDown x := by
  induction x using wrapDown.induct with
  | case1 x h1 ih =>
      intro _
      rw [wrapDown_of_gt h1]
      exact ih (by linarith [mathPi_pos])
  | case2 x h1 =>
      intro h
      rw [wrapDown_of_le (not_lt.mp h1)]; exact h

lemma wrapDown_sub (x : ℚ) : ∃ k : ℤ, wrapDown x = x + mathPi * 2 * k := by
  induction x using wrapDown.induct with
  | case1 x h1 ih =>
      obtain ⟨k, hk⟩ := ih
      exact ⟨k - 1, by rw [wrapDown_of_gt h1, hk]; push_cast; ring⟩
  | case2 x h1 => exact ⟨0, by rw [wrapDown_of_le (not_lt.mp h1)]; push_cast; ring⟩

lemma wrapDiff_gt (x : ℚ) : -mathPi < wrapDiff x :=
  wrapDown_gt _ (wrapUp_gt x)

lemma wrapDiff_le (x : ℚ) : wrapDiff x ≤ mathPi :=
  wrapDown_le _

lemma wrapDiff_sub (x : ℚ) : ∃ k : ℤ, wrapDiff x = x + mathPi * 2 * k := by
  obtain ⟨k1, h1⟩ := wrapUp_sub x
  obtain ⟨k2, h2⟩ := wrapDown_sub (wrapUp x)
  exact ⟨k1 + k2, by rw [wrapDiff, h2, h1]; push_cast; ring⟩

/-- If the input is already in the normalized interval, both loops are
no-ops. -/
lemma wrapDiff_of_mem {x : ℚ} (h1 : -mathPi < x) (h2 : x ≤ mathPi) :
    wrapDiff x = x := by
  rw [wrapDiff, wrapUp_of_gt h1, wrapDown_of_le h2]

/-! ### Properties of the JavaScript remainder -/

lemma jsMod_sub (a b : ℚ) : ∃ k : ℤ, jsMod a b = a - b * k :=
  ⟨jsTrunc (a / b), rfl⟩

lemma jsMod_nonneg_of_nonneg {a b : ℚ} (hb : 0 < b) (ha : 0 ≤ a) :
    0 ≤ jsMod a b ∧ jsMod a b < b := by
  have hq : 0 ≤ a / b := div_nonneg ha hb.le
  have ht : jsTrunc (a / b) = ⌊a / b⌋ := by
    rw [jsTrunc, if_neg (not_lt.mpr hq)]
  rw [jsMod, ht]
  constructor
  · have h1 : (⌊a / b⌋ : ℚ) ≤ a / b := Int.floor_le _
    have h2 : b * (⌊a / b⌋ : ℚ) ≤ b * (a / b) := by
      exact mul_le_mul_of_nonneg_left h1 hb.le
    rw [mul_div_cancel₀ a hb.ne'] at h2
    linarith
  · have h1 : a / b - 1 < (⌊a / b⌋ : ℚ) := Int.sub_one_lt_floor _
    have h2 : b * (a / b - 1) < b * (⌊a / b⌋ : ℚ) :=
      mul_lt_mul_of_pos_left h1 hb
    rw [mul_sub, mul_div_cancel₀ a hb.ne'] at h2
    linarith

lemma jsMod_nonpos_of_neg {a b : ℚ} (hb : 0 < b) (ha : a < 0) :
    -b < jsMod a b ∧ jsMod a b ≤ 0 := by
  have hq : a / b < 0 := div_neg_of_neg_of_pos ha hb
  have ht : jsTrunc (a / b) = ⌈a / b⌉ := by
    rw [jsTrunc, if_pos hq]
  rw [jsMod, ht]
  constructor
  · have h1 : (⌈a / b⌉ : ℚ) < a / b + 1 := Int.ceil_lt_add_one _
    have h2 : b * (⌈a / b⌉ : ℚ) < b * (a / b + 1) :=
      mul_lt_mul_of_pos_left h1 hb
    rw [mul_add, mul_div_cancel₀ a hb.ne'] at h2
    linarith
  · have h1 : a / b ≤ (⌈a / b⌉ : ℚ) := Int.le_ceil _
    have h2 : b * (a / b) ≤ b * (⌈a / b⌉ : ℚ) :=
      mul_le_mul_of_nonneg_left h1 hb.le
    rw [mul_div_cancel₀ a hb.ne'] at h2
    linarith

lemma jsMod_abs_lt {a b : ℚ} (hb : 0 < b) : |jsMod a b| < b := by
  rcases le_or_lt 0 a with ha | ha
  · obtain ⟨h1, h2⟩ := jsMod_nonneg_of_nonneg hb ha
    rw [abs_of_nonneg h1]; exact h2
  · obtain ⟨h1, h2⟩ := jsMod_nonpos_of_neg hb ha
    rw [abs_of_nonpos h2]; linarith

/-! ## Entity model (server.js lines 71–82 and the object literals that
populate it).  Coordinates, angles and timestamps are rationals; the
string id `food-${nextFoodId}` is represented by its numeric counter value
(the prefix `food-` makes the string id injective in the counter). -/

structure Pt where
  x : ℚ
  y : ℚ
  z : ℚ
deriving DecidableEq

structure BotState where
  targetFoodId : Option ℕ
  ticksUntilTargetUpdate : ℤ
deriving DecidableEq

structure Worm where
  segments : List Pt
  angle : ℚ
  targetAngle : ℚ
  color : ℚ
  score : ℤ
  isAlive : Bool
  hasSpeedBoost : Bool
  speedBoostEndTime : ℚ
  isMagnetActive : Bool
  botState : Option BotState
deriving DecidableEq

structure Player where
  id : ℕ
  name : String
  isBot : Bool
  worm : Option Worm
deriving DecidableEq

structure Food where
  id : ℕ
  x : ℚ
  y : ℚ
  z : ℚ
  color : ℚ
  radius : ℚ
  type : ℤ
deriving DecidableEq

/-! ## Movement update (`updateWorm`, lines 351–385).  `Math.cos`/`Math.sin`
are taken as oracle functions (their float values are irrelevant to every
property below), and `Date.now()` is the explicit parameter `now`. -/

/-- Lines 359–371: the next value of `worm.angle` computed from the current
angle and the target angle. -/
def nextAngle (currentAngle targetAngle : ℚ) : ℚ :=
  let angleDiff := wrapDiff (targetAngle - currentAngle)
  let c :=
    if WORM_TURN_SPEED < |angleDiff| then
      currentAngle + jsSign angleDiff * WORM_TURN_SPEED
    else targetAngle
  jsMod (c + mathPi * 2) (mathPi * 2)

/-- Line 374: `const currentSpeed = (worm.hasSpeedBoost && Date.now() <
worm.speedBoostEndTime) ? WORM_SPEED * SPEED_BOOST_FACTOR : WORM_SPEED;`. -/
def currentSpeedOf (now : ℚ) (w : Worm) : ℚ :=
  if w.hasSpeedBoost = true ∧ now < w.speedBoostEndTime then
    WORM_SPEED * SPEED_BOOST_FACTOR
  else WORM_SPEED

/-- `updateWorm` (lines 351–385): turn toward `targetAngle` (clamped by the
turn rate), normalize the angle, and unshift a new head segment moved by
the effective speed.  Tail removal is deferred to the collision phase. -/
def updateWorm (now : ℚ) (cosO sinO : ℚ → ℚ) (w : Worm) : Worm :=
  match w.segments with
  | [] => w
  | head :: _ =>
    if w.isAlive = true then
      let newAngle := nextAngle w.angle w.targetAngle
      let speed := currentSpeedOf now w
      let newHead : Pt :=
        ⟨head.x + cosO newAngle * speed, head.y + sinO newAngle * speed, head.z⟩
      { w with angle := newAngle, segments := newHead :: w.segments }
    else w

lemma updateWorm_angle (now : ℚ) (cosO sinO : ℚ → ℚ) (w : Worm)
    (halive : w.isAlive = true) (hne : w.segments ≠ []) :
    (updateWorm now cosO sinO w).angle = nextAngle w.angle w.targetAngle := by
  match hs : w.segments with
  | [] => exact absurd hs hne
  | head :: rest => rw [updateWorm]; rw [hs]; simp [halive]

lemma updateWorm_segments (now : ℚ) (cosO sinO : ℚ → ℚ) (w : Worm)
    (halive : w.isAlive = true) (hne : w.segments ≠ []) :
    (updateWorm now cosO sinO w).segments.length = w.segments.length + 1 := by
  match hs : w.segments with
  | [] => exact absurd hs hne
  | head :: rest =>
      rw [updateWorm]; rw [hs]; simp [halive, hs]

lemma updateWorm_hasSpeedBoost (now : ℚ) (cosO sinO : ℚ → ℚ) (w : Worm) :
    (updateWorm now cosO sinO w).hasSpeedBoost = w.hasSpeedBoost := by
  rw [updateWorm]
  match hs : w.segments with
  | [] => rfl
  | head :: rest => by_cases h : w.isAlive = true <;> simp [h]

/-! ### Properties of the angle computation -/

lemma two_mathPi_pos : (0:ℚ) < mathPi * 2 := by norm_num [mathPi]

lemma jsSign_abs {d : ℚ} (hd : d ≠ 0) : |jsSign d| = 1 := by
  rcases lt_trichotomy d 0 with h | h | h
  · rw [jsSign, if_neg (by linarith), if_pos h]; norm_num
  · exact absurd h hd
  · rw [jsSign, if_pos h]; norm_num

/-- The normalized angle written back by `updateWorm` always lies strictly
between `-2π` and `2π` (the truncated remainder keeps the sign of its
dividend, so the lower bound cannot be improved to `0` in general). -/
lemma nextAngle_abs_lt (a t : ℚ) : |nextAngle a t| < mathPi * 2 := by
  rw [nextAngle]
  exact jsMod_abs_lt two_mathPi_pos

/-- If the current angle is non-negative and the target angle is at least
`-2π`, the normalized result lands in `[0, 2π)`. -/
lemma nextAngle_nonneg_lt (a t : ℚ) (h0 : 0 ≤ a) (ht : -(mathPi * 2) ≤ t) :
    0 ≤ nextAngle a t ∧ nextAngle a t < mathPi * 2 := by
  rw [nextAngle]
  set d := wrapDiff (t - a) with hd
  by_cases hb : WORM_TURN_SPEED < |d|
  · rw [if_pos hb]
    apply jsMod_nonneg_of_nonneg two_mathPi_pos
    have hs : -1 ≤ jsSign d := by
      rw [jsSign]
      split <;> try norm_num
      split <;> norm_num
    have : (0:ℚ) < mathPi * 2 := two_mathPi_pos
    have hts : (0:ℚ) < WORM_TURN_SPEED := by norm_num [WORM_TURN_SPEED]
    have : jsSign d * WORM_TURN_SPEED ≥ -WORM_TURN_SPEED := by nlinarith
    have hturn : WORM_TURN_SPEED ≤ mathPi * 2 := by
      norm_num [WORM_TURN_SPEED, mathPi]
    linarith
  · rw [if_neg hb]
    apply jsMod_nonneg_of_nonneg two_mathPi_pos
    linarith

/-- The per-tick heading change is at most the turn rate, modulo full
turns: there is an integer `k` with
`|nextAngle a t - a + 2π k| ≤ WORM_TURN_SPEED`. -/
lemma nextAngle_turn_bound (a t : ℚ) :
    ∃ k : ℤ, |nextAngle a t - a + mathPi * 2 * k| ≤ WORM_TURN_SPEED := by
  rw [nextAngle]
  set d := wrapDiff (t - a) with hd
  by_cases hb : WORM_TURN_SPEED < |d|
  · rw [if_pos hb]
    obtain ⟨k0, hk0⟩ := jsMod_sub (a + jsSign d * WORM_TURN_SPEED + mathPi * 2)
      (mathPi * 2)
    refine ⟨k0 - 1, ?_⟩
    have hd0 : d ≠ 0 := by
      intro h
      rw [h] at hb
      simp at hb
      norm_num [WORM_TURN_SPEED] at hb
    have habs : |jsSign d * WORM_TURN_SPEED| = WORM_TURN_SPEED := by
      rw [abs_mul, jsSign_abs hd0, one_mul,
        abs_of_nonneg (by norm_num [WORM_TURN_SPEED])]
    have : jsMod (a + jsSign d * WORM_TURN_SPEED + mathPi * 2) (mathPi * 2) - a
        + mathPi * 2 * (k0 - 1) = jsSign d * WORM_TURN_SPEED := by
      rw [hk0]; ring
    push_cast
    rw [this, habs]
  · rw [if_neg hb]
    obtain ⟨k0, hk0⟩ := jsMod_sub (t + mathPi * 2) (mathPi * 2)
    obtain ⟨k1, hk1⟩ := wrapDiff_sub (t - a)
    refine ⟨k0 + k1 - 1, ?_⟩
    have : jsMod (t + mathPi * 2) (mathPi * 2) - a + mathPi * 2 * (k0 + k1 - 1)
        = d := by
      rw [hk0, hd, hk1]; ring
    push_cast
    rw [this]
    exact not_lt.mp hb

/-- When the (normalized) difference to the target is within one turn step,
the update snaps exactly to the target angle, modulo full turns. -/
lemma nextAngle_snap (a t : ℚ) (h : |wrapDiff (t - a)| ≤ WORM_TURN_SPEED) :
    ∃ k : ℤ, nextAngle a t = t + mathPi * 2 * k := by
  rw [nextAngle]
  rw [if_neg (not_lt.mpr h)]
  obtain ⟨k0, hk0⟩ := jsMod_sub (t + mathPi * 2) (mathPi * 2)
  exact ⟨1 - k0, by rw [hk0]; push_cast; ring⟩

/-! ## Demonstration states used by counterexamples and witnesses -/

/-- A living one-segment worm with an expired speed boost
(`speedBoostEndTime = 5`). -/
def wormBoostDemo : Worm :=
  ⟨[⟨0, 0, 0⟩], 0, 0, 0, 0, true, true, 5, false, none⟩

/-- A living worm whose player submitted the raw input angle `-4π + 1/100`
(accepted by the input handler: it is a finite number), with current
heading `1/100`. -/
def wormNegDemo : Worm :=
  ⟨[⟨0, 0, 0⟩], 1/100, -(mathPi * 4) + 1/100, 0, 0, true, false, 0, false, none⟩

/-- A living worm with heading `0` and desired heading `1/100` (within one
turn step). -/
def wormDemo : Worm :=
  ⟨[⟨0, 0, 0⟩], 0, 1/100, 0, 0, true, false, 0, false, none⟩

/-- Claim C1 (counterexample): a worm whose boost expiry (timestamp 5) has
been reached at tick time `now = 10` still has `hasSpeedBoost = true`
after the movement update — `updateWorm` never resets the flag, so the
claim that the movement update resets it to `false` on the first tick at
or after expiry is false. -/
theorem claim_C1_counterexample :
    ¬ ((updateWorm 10 (fun _ => 0) (fun _ => 0) wormBoostDemo).hasSpeedBoost
      = false) := by
  rw [updateWorm_hasSpeedBoost]
  decide

/-- Claim C1 (amended): once the expiry timestamp is reached
(`speedBoostEndTime ≤ now`), the movement update automatically reverts to
the base speed — `currentSpeedOf` (the speed actually used to advance the
head) equals `WORM_SPEED` — but the `hasSpeedBoost` flag is left unchanged
by `updateWorm`; it is never reset to `false`. -/
theorem claim_C1_amended (now : ℚ) (cosO sinO : ℚ → ℚ) (w : Worm)
    (h : w.speedBoostEndTime ≤ now) :
    currentSpeedOf now w = WORM_SPEED ∧
    (updateWorm now cosO sinO w).hasSpeedBoost = w.hasSpeedBoost := by
  refine ⟨?_, updateWorm_hasSpeedBoost now cosO sinO w⟩
  rw [currentSpeedOf, if_neg]
  rintro ⟨-, hlt⟩
  linarith

/-- Claim C1 (witness): the amended statement evaluated on the expired
demo worm at `now = 10`. -/
theorem claim_C1_witness :
    currentSpeedOf 10 wormBoostDemo = WORM_SPEED ∧
    (updateWorm 10 (fun _ => 0) (fun _ => 0) wormBoostDemo).hasSpeedBoost
      = wormBoostDemo.hasSpeedBoost :=
  claim_C1_amended 10 (fun _ => 0) (fun _ => 0) wormBoostDemo (by decide)

/-- Claim C3 (counterexample): the heading written back by the movement
update can be negative.  With current heading `1/100` and a player-set
desired heading `-4π + 1/100` (a finite number, stored raw by the input
handler), the reduced difference is exactly `0`, the update snaps to the
raw target, and the JavaScript remainder `(target + 2π) % 2π` of the
negative dividend `-2π + 1/100` is negative — so the resulting heading is
not in `[0, 2π)`. -/
theorem claim_C3_counterexample :
    ¬ (0 ≤ (updateWorm 0 (fun _ => 0) (fun _ => 0) wormNegDemo).angle) := by
  rw [updateWorm_angle 0 (fun _ => 0) (fun _ => 0) wormNegDemo rfl (by decide)]
  have hdiff : wormNegDemo.targetAngle - wormNegDemo.angle = -(mathPi * 4) := by
    show -(mathPi * 4) + 1/100 - 1/100 = -(mathPi * 4)
    ring
  have hw : wrapDiff (wormNegDemo.targetAngle - wormNegDemo.angle) = 0 := by
    rw [hdiff, wrapDiff, wrapUp_of_le (by norm_num [mathPi]),
      wrapUp_of_le (by norm_num [mathPi]), wrapUp_of_gt (by norm_num [mathPi]),
      wrapDown_of_le (by norm_num [mathPi])]
    ring
  rw [nextAngle]
  simp only [hw, abs_zero]
  rw [if_neg (by norm_num [WORM_TURN_SPEED])]
  have harg : wormNegDemo.targetAngle + mathPi * 2 = -(mathPi * 2) + 1/100 := by
    show -(mathPi * 4) + 1/100 + mathPi * 2 = -(mathPi * 2) + 1/100
    ring
  rw [harg, jsMod, jsTrunc]
  have hqneg : (-(mathPi * 2) + 1/100) / (mathPi * 2) < 0 := by
    apply div_neg_of_neg_of_pos
    · norm_num [mathPi]
    · exact two_mathPi_pos
  rw [if_pos hqneg]
  have hceil : ⌈(-(mathPi * 2) + 1/100) / (mathPi * 2)⌉ = 0 := by
    rw [Int.ceil_eq_iff]
    refine ⟨?_, hqneg.le⟩
    push_cast
    rw [lt_div_iff₀ two_mathPi_pos]
    norm_num [mathPi]
  rw [hceil]
  norm_num [mathPi]

/-- Claim C3 (amended): after the movement update of a living worm the
heading always lies strictly between `-2π` and `2π`; it lies in `[0, 2π)`
provided the pre-update heading is non-negative and the desired heading is
at least `-2π` (as is the case for every bot-normalized desired heading) —
but a player-set desired heading below `-2π` can produce a negative
heading on the snap tick, so `[0, 2π)` does not hold unconditionally. -/
theorem claim_C3_amended (now : ℚ) (cosO sinO : ℚ → ℚ) (w : Worm)
    (halive : w.isAlive = true) (hne : w.segments ≠ []) :
    |(updateWorm now cosO sinO w).angle| < mathPi * 2 ∧
    (0 ≤ w.angle → -(mathPi * 2) ≤ w.targetAngle →
      0 ≤ (updateWorm now cosO sinO w).angle ∧
      (updateWorm now cosO sinO w).angle < mathPi * 2) := by
  rw [updateWorm_angle now cosO sinO w halive hne]
  exact ⟨nextAngle_abs_lt _ _, fun h0 ht => nextAngle_nonneg_lt _ _ h0 ht⟩

/-- Claim C3 (witness): the amended statement evaluated on the demo worm
with heading `0` and desired heading `1/100`. -/
theorem claim_C3_witness :
    0 ≤ (updateWorm 0 (fun _ => 0) (fun _ => 0) wormDemo).angle ∧
    (updateWorm 0 (fun _ => 0) (fun _ => 0) wormDemo).angle < mathPi * 2 :=
  (claim_C3_amended 0 (fun _ => 0) (fun _ => 0) wormDemo rfl (by decide)).2
    (by decide) (by norm_num [wormDemo, mathPi])

/-- Claim C4: for every living worm, the heading change produced by the
movement update is, modulo full turns, at most the maximum turn rate
`WORM_TURN_SPEED`; and when the normalized difference between the desired
heading and the current heading is within one turn step, the update snaps
exactly to the desired heading, modulo normalization. -/
theorem claim_C4 (now : ℚ) (cosO sinO : ℚ → ℚ) (w : Worm)
    (halive : w.isAlive = true) (hne : w.segments ≠ []) :
    (∃ k : ℤ, |(updateWorm now cosO sinO w).angle - w.angle + mathPi * 2 * k|
      ≤ WORM_TURN_SPEED) ∧
    (|wrapDiff (w.targetAngle - w.angle)| ≤ WORM_TURN_SPEED →
      ∃ k : ℤ, (updateWorm now cosO sinO w).angle
        = w.targetAngle + mathPi * 2 * k) := by
  rw [updateWorm_angle now cosO sinO w halive hne]
  exact ⟨nextAngle_turn_bound _ _, fun h => nextAngle_snap _ _ h⟩

/-- Claim C4 (witness): both parts of the turn-rate statement evaluated on
the demo worm (heading `0`, desired heading `1/100`, which is within one
turn step). -/
theorem claim_C4_witness :
    (∃ k : ℤ, |(updateWorm 0 (fun _ => 0) (fun _ => 0) wormDemo).angle
      - wormDemo.angle + mathPi * 2 * k| ≤ WORM_TURN_SPEED) ∧
    (∃ k : ℤ, (updateWorm 0 (fun _ => 0) (fun _ => 0) wormDemo).angle
      = wormDemo.targetAngle + mathPi * 2 * k) := by
  have h := claim_C4 0 (fun _ => 0) (fun _ => 0) wormDemo rfl (by decide)
  refine ⟨h.1, h.2 ?_⟩
  have he : wormDemo.targetAngle - wormDemo.angle = 1/100 := by
    show (1:ℚ)/100 - 0 = 1/100
    ring
  rw [he, wrapDiff_of_mem (by norm_num [mathPi]) (by norm_num [mathPi]),
    abs_of_nonneg (by norm_num)]
  norm_num [WORM_TURN_SPEED]

/-! ## The `playerInput` socket handler (lines 791–803).

A JavaScript value submitted as `data.angle` is modelled by `JsVal`: a
finite number, a number that is not finite (`NaN`, `±Infinity`), or a
non-number value.  A falsy `data` object is modelled by `none`. -/

inductive JsVal where
  | num (x : ℚ)
  | nonFinite
  | notNumber
deriving DecidableEq

/-- Lines 791–803: `if (player?.worm?.isAlive && data && typeof data.angle
=== 'number' && isFinite(data.angle)) player.worm.targetAngle =
data.angle;`. -/
def playerInputHandler (p : Option Player) (data : Option JsVal) :
    Option Player :=
  match p with
  | none => none
  | some pl =>
    match pl.worm with
    | none => some pl
    | some w =>
      if w.isAlive = true then
        match data with
        | some (JsVal.num x) =>
            some { pl with worm := some { w with targetAngle := x } }
        | _ => some pl
      else some pl

/-- Claim C9: the handler stores a submitted finite angle raw (no
normalization) into `targetAngle` of a living worm, and leaves the player
unchanged when the angle is non-finite or not a number, when `data` is
falsy, or when the worm is dead or absent. -/
theorem claim_C9 :
    (∀ (pl : Player) (w : Worm) (x : ℚ), pl.worm = some w →
      w.isAlive = true →
      playerInputHandler (some pl) (some (JsVal.num x))
        = some { pl with worm := some { w with targetAngle := x } }) ∧
    (∀ (pl : Player) (w : Worm) (data : Option JsVal), pl.worm = some w →
      w.isAlive = true → (∀ x : ℚ, data ≠ some (JsVal.num x)) →
      playerInputHandler (some pl) data = some pl) ∧
    (∀ (pl : Player) (w : Worm) (data : Option JsVal), pl.worm = some w →
      w.isAlive = false →
      playerInputHandler (some pl) data = some pl) ∧
    (∀ (pl : Player) (data : Option JsVal), pl.worm = none →
      playerInputHandler (some pl) data = some pl) := by
  refine ⟨?_, ?_, ?_, ?_⟩
  · intro pl w x hw halive
    rw [playerInputHandler]
    rw [hw]
    simp [halive]
  · intro pl w data hw halive hnn
    rw [playerInputHandler]
    rw [hw]
    match data with
    | none => simp [halive]
    | some (JsVal.num x) => exact absurd rfl (hnn x)
    | some JsVal.nonFinite => simp [halive]
    | some JsVal.notNumber => simp [halive]
  · intro pl w data hw hdead
    rw [playerInputHandler]
    rw [hw]
    simp [hdead]
  · intro pl data hw
    rw [playerInputHandler]
    rw [hw]

/-- A living demo player used by the input-handler witness. -/
def playerDemo : Player := ⟨0, "p", false, some wormDemo⟩

/-- Claim C9 (witness): a finite angle of `-100` (below `-2π`, not
normalized) is stored raw on the living demo player. -/
theorem claim_C9_witness :
    playerInputHandler (some playerDemo) (some (JsVal.num (-100)))
      = some { playerDemo with
          worm := some { wormDemo with targetAngle := -100 } } :=
  claim_C9.1 playerDemo wormDemo (-100) rfl rfl

/-! ## Leaderboard (`getLeaderboard`, lines 668–680).

`Array.prototype.sort` with the comparator `(a, b) => b.score - a.score`
is guaranteed stable by ECMAScript; the stable descending order is
computed here by an insertion sort that keeps earlier input elements ahead
of later elements of equal score. -/

structure LBEntry where
  id : ℕ
  name : String
  score : ℤ
  color : ℚ
deriving DecidableEq

/-- Line 674: `p.name || ...` falls back to a generated label when the
name is empty (the only falsy string). -/
def entryName (p : Player) : String :=
  if p.name = "" then
    (if p.isBot then "Bot " else "Worm ") ++ (toString p.id).take 4
  else p.name

/-- Lines 672–677: the mapping from a player (with worm data) to its
leaderboard entry. -/
def toEntry (p : Player) (w : Worm) : LBEntry :=
  ⟨p.id, entryName p, w.score, w.color⟩

/-- Lines 670–677: `Object.values(players).filter(player =>
player.worm).map(...)`. -/
def lbEntries (ps : List Player) : List LBEntry :=
  ps.filterMap (fun p => p.worm.map (fun w => toEntry p w))

/-- One insertion step of the stable descending sort: a new (earlier)
element goes in front of the first element whose score is not larger. -/
def lbInsert (e : LBEntry) : List LBEntry → List LBEntry
  | [] => [e]
  | x :: xs => if x.score ≤ e.score then e :: x :: xs else x :: lbInsert e xs

/-- Stable sort by descending score (line 678's
`.sort((a, b) => b.score - a.score)`). -/
def lbSort : List LBEntry → List LBEntry
  | [] => []
  | x :: xs => lbInsert x (lbSort xs)

/-- `getLeaderboard` (lines 668–680): entries of all players having worm
data, stably sorted by descending score, truncated to the top 10. -/
def getLeaderboard (ps : List Player) : List LBEntry :=
  (lbSort (lbEntries ps)).take 10

lemma lbInsert_perm (e : LBEntry) (l : List LBEntry) :
    (lbInsert e l).Perm (e :: l) := by
  induction l with
  | nil => rfl
  | cons x xs ih =>
      rw [lbInsert]
      by_cases h : x.score ≤ e.score
      · rw [if_pos h]
      · rw [if_neg h]
        exact (ih.cons x).trans (List.Perm.swap e x xs)

lemma lbSort_perm (l : List LBEntry) : (lbSort l).Perm l := by
  induction l with
  | nil => rfl
  | cons x xs ih =>
      rw [lbSort]
      exact (lbInsert_perm x (lbSort xs)).trans (ih.cons x)

lemma lbInsert_pairwise (e : LBEntry) (l : List LBEntry)
    (h : l.Pairwise (fun a b => b.score ≤ a.score)) :
    (lbInsert e l).Pairwise (fun a b => b.score ≤ a.score) := by
  induction l with
  | nil => simp [lbInsert]
  | cons x xs ih =>
      rw [lbInsert]
      rw [List.pairwise_cons] at h
      by_cases hx : x.score ≤ e.score
      · rw [if_pos hx]
        refine List.Pairwise.cons ?_ (List.pairwise_cons.mpr h)
        intro y hy
        rcases List.mem_cons.mp hy with rfl | hy
        · exact hx
        · exact (h.1 y hy).trans hx
      · rw [if_neg hx]
        refine List.Pairwise.cons ?_ (ih h.2)
        intro y hy
        rcases List.mem_cons.mp ((lbInsert_perm e xs).mem_iff.mp hy) with
          rfl | hy
        · exact (not_le.mp hx).le
        · exact h.1 y hy

lemma lbSort_pairwise (l : List LBEntry) :
    (lbSort l).Pairwise (fun a b => b.score ≤ a.score) := by
  induction l with
  | nil => exact List.Pairwise.nil
  | cons x xs ih => exact lbInsert_pairwise x (lbSort xs) ih

lemma lbInsert_filter_eq {e : LBEntry} {s : ℤ} (he : e.score = s)
    (l : List LBEntry) :
    (lbInsert e l).filter (fun x => decide (x.score = s))
      = e :: l.filter (fun x => decide (x.score = s)) := by
  induction l with
  | nil => simp [lbInsert, List.filter, he]
  | cons x xs ih =>
      rw [lbInsert]
      by_cases hx : x.score ≤ e.score
      · rw [if_pos hx]
        simp [List.filter, he]
      · rw [if_neg hx]
        have hxs : ¬ (x.score = s) := by
          intro hs
          exact hx (by rw [hs, he])
        rw [List.filter_cons_of_neg (by simp [hxs]), ih,
          List.filter_cons_of_neg (by simp [hxs])]

lemma lbInsert_filter_ne {e : LBEntry} {s : ℤ} (he : ¬ e.score = s)
    (l : List LBEntry) :
    (lbInsert e l).filter (fun x => decide (x.score = s))
      = l.filter (fun x => decide (x.score = s)) := by
  induction l with
  | nil => simp [lbInsert, List.filter, he]
  | cons x xs ih =>
      rw [lbInsert]
      by_cases hx : x.score ≤ e.score
      · rw [if_pos hx]
        simp [List.filter, he]
      · rw [if_neg hx]
        by_cases hxs : x.score = s
        · simp [List.filter, hxs, ih]
        · simp [List.filter, hxs, ih]

/-- Stability of the sort: for every score value, the tied entries appear
in the sorted list exactly in their input order. -/
lemma lbSort_filter (l : List LBEntry) (s : ℤ) :
    (lbSort l).filter (fun x => decide (x.score = s))
      = l.filter (fun x => decide (x.score = s)) := by
  induction l with
  | nil => rfl
  | cons x xs ih =>
      rw [lbSort]
      by_cases hx : x.score = s
      · rw [lbInsert_filter_eq hx, ih]
        simp [List.filter, hx]
      · rw [lbInsert_filter_ne hx, ih]
        simp [List.filter, hx]

lemma filter_take_prefix (p : LBEntry → Bool) (n : ℕ) (l : List LBEntry) :
    (l.take n).filter p <+: l.filter p := by
  induction l generalizing n with
  | nil => simp
  | cons x xs ih =>
      match n with
      | 0 => simp
      | n + 1 =>
          rw [List.take_succ_cons]
          by_cases hx : p x
          · rw [List.filter_cons_of_pos hx, List.filter_cons_of_pos hx]
            exact List.cons_prefix_cons.mpr ⟨rfl, ih n⟩
          · rw [List.filter_cons_of_neg hx, List.filter_cons_of_neg hx]
            exact ih n

/-- Claim C7: the leaderboard produced each tick contains entries only for
players with worm data, is sorted by score in descending order, preserves
the input order of equal-score entries (the tied entries of the output
form a prefix of the tied entries of the unsorted entry list), and has at
most 10 entries. -/
theorem claim_C7 (ps : List Player) :
    (getLeaderboard ps).length ≤ 10 ∧
    (getLeaderboard ps).Pairwise (fun a b => b.score ≤ a.score) ∧
    (∀ e ∈ getLeaderboard ps, ∃ p ∈ ps, ∃ w : Worm,
      p.worm = some w ∧ e = toEntry p w) ∧
    (∀ s : ℤ, (getLeaderboard ps).filter (fun e => decide (e.score = s))
      <+: (lbEntries ps).filter (fun e => decide (e.score = s))) := by
  refine ⟨?_, ?_, ?_, ?_⟩
  · rw [getLeaderboard]
    exact List.length_take_le _ _
  · exact (lbSort_pairwise _).sublist (List.take_sublist _ _)
  · intro e he
    have h1 : e ∈ lbSort (lbEntries ps) :=
      List.mem_of_mem_take he
    have h2 : e ∈ lbEntries ps := (lbSort_perm _).mem_iff.mp h1
    obtain ⟨p, hp, hpe⟩ := List.mem_filterMap.mp h2
    obtain ⟨w, hw, hwe⟩ := Option.map_eq_some'.mp hpe
    exact ⟨p, hp, w, hw, hwe.symm⟩
  · intro s
    rw [getLeaderboard]
    have := filter_take_prefix (fun e => decide (e.score = s)) 10
      (lbSort (lbEntries ps))
    rwa [lbSort_filter] at this

/-- Demo registry: three players with scores `5`, `10`, `5` (a tie between
the first and the third) and one player without worm data. -/
def playersDemo : List Player :=
  [⟨1, "a", false, some { wormDemo with score := 5 }⟩,
   ⟨2, "b", true, some { wormDemo with score := 10 }⟩,
   ⟨3, "c", false, some { wormDemo with score := 5 }⟩,
   ⟨4, "d", false, none⟩]

/-- Claim C7 (witness): the length bound and the tie-stability statement
(at score `5`) evaluated on the demo registry. -/
theorem claim_C7_witness :
    (getLeaderboard playersDemo).length ≤ 10 ∧
    (getLeaderboard playersDemo).filter (fun e => decide (e.score = 5))
      <+: (lbEntries playersDemo).filter (fun e => decide (e.score = 5)) :=
  ⟨(claim_C7 playersDemo).1, (claim_C7 playersDemo).2.2.2 5⟩

/-! ## Food economy (lines 90–180 and the death drop in `killPlayer`,
lines 300–322).

`Math.random()` is modelled as a stream of rationals consumed one draw at
a time; every call site consumes draws in source order. -/

structure Rng where
  stream : ℕ → ℚ
  idx : ℕ

/-- One call of `Math.random()`. -/
def Rng.next (r : Rng) : ℚ × Rng :=
  (r.stream r.idx, ⟨r.stream, r.idx + 1⟩)

/-- Line 91: `getRandomColor` — the color is identified with its random
hue `Math.random() * 360`. -/
def getRandomColor (r : Rng) : ℚ × Rng :=
  let (q, r1) := r.next
  (q * 360, r1)

/-- Lines 92–96: `getRandomSpawnPositionXY(margin)`. -/
def getRandomSpawnPositionXY (margin : ℚ) (r : Rng) : (ℚ × ℚ) × Rng :=
  let (qx, r1) := r.next
  let (qy, r2) := r1.next
  ((qx * (WORLD_WIDTH - 2 * margin) + margin,
    qy * (WORLD_HEIGHT - 2 * margin) + margin), r2)

/-- Mutable food-economy state: the food list, the id counter
`nextFoodId`, and the random stream position. -/
structure FoodSys where
  food : List Food
  nextFoodId : ℕ
  rng : Rng

/-- Lines 104–137: `isSpawnPositionClear(x, y)` — clear iff not too close
to any food item nor to any living worm's head (a worm with no segments
has an `undefined` head whose `NaN` distance compares `false`, i.e. it
never blocks). -/
def isSpawnPositionClear (x y : ℚ) (foodL : List Food) (ps : List Player) :
    Bool :=
  (foodL.all fun f =>
    if (x - f.x) * (x - f.x) + (y - f.y) * (y - f.y)
        < MIN_FOOD_SPAWN_DISTANCE_SQ then false else true) &&
  (ps.all fun p =>
    match p.worm with
    | none => true
    | some w =>
      if w.isAlive = true then
        match w.segments with
        | [] => true
        | head :: _ =>
          if (x - head.x) * (x - head.x) + (y - head.y) * (y - head.y)
              < (WORM_SEGMENT_RADIUS * 10)^2 then false else true
      else true)

/-- Lines 152–158: the `while (!spawnPos && attempts < maxAttempts)` loop
(at most 15 attempts). -/
def findClearPos : ℕ → List Food → List Player → Rng →
    Option (ℚ × ℚ) × Rng
  | 0, _, _, r => (none, r)
  | n + 1, fl, ps, r =>
    let pos := getRandomSpawnPositionXY (FOOD_RADIUS * 4) r
    if isSpawnPositionClear pos.1.1 pos.1.2 fl ps = true then
      (some pos.1, pos.2)
    else findClearPos n fl ps pos.2

/-- `spawnFood(count)` (lines 143–180): repeatedly (stopping at the cap)
pick a clear position (falling back to an unchecked one after 15
attempts), draw a type `Math.floor(Math.random() * FOOD_IMAGE_TYPES) + 1`
and a color, and push the item with id `nextFoodId++`.  Besides the final
state, the list of items created by the call is returned. -/
def spawnFood : ℕ → List Player → FoodSys → FoodSys × List Food
  | 0, _, st => (st, [])
  | n + 1, ps, st =>
    if MAX_FOOD ≤ st.food.length then (st, [])
    else
      let fc := findClearPos 15 st.food ps st.rng
      let pr : (ℚ × ℚ) × Rng :=
        match fc.1 with
        | some pos => (pos, fc.2)
        | none => getRandomSpawnPositionXY (FOOD_RADIUS * 2) fc.2
      let tq := pr.2.next
      let foodType : ℤ := ⌊tq.1 * (FOOD_IMAGE_TYPES : ℚ)⌋ + 1
      let hue := getRandomColor tq.2
      let item : Food :=
        ⟨st.nextFoodId, pr.1.1, pr.1.2, WORLD_GROUND_Z, hue.1, FOOD_RADIUS,
          foodType⟩
      let rest := spawnFood n ps ⟨st.food ++ [item], st.nextFoodId + 1, hue.2⟩
      (rest.1, item :: rest.2)

/-- Lines 306–311 of `killPlayer`: draw a type and redraw while it is one
of the three reserved power-up types.  The source loops until a
non-reserved draw arrives; on an adversarial random stream that loop need
not terminate, so it is modelled with a (large) retry budget whose
exhausted case keeps the last draw.  The drawn type plays no role in the
id-uniqueness results below. -/
def dropTypeDraw : ℕ → Rng → ℤ × Rng
  | 0, r =>
    let q := r.next
    (⌊q.1 * (FOOD_IMAGE_TYPES : ℚ)⌋ + 1, q.2)
  | n + 1, r =>
    let q := r.next
    let t : ℤ := ⌊q.1 * (FOOD_IMAGE_TYPES : ℚ)⌋ + 1
    if t = FOOD_TYPE_POWER ∨ t = FOOD_TYPE_ZOOM ∨ t = FOOD_TYPE_MAGNET then
      dropTypeDraw n q.2
    else (t, q.2)

/-- Lines 300–322 of `killPlayer`: walk the dying worm's segments with
their index; every `FOOD_DROP_INTERVAL`-th segment drops, with probability
`FOOD_DROP_CHANCE` and subject to the cap, a food item at the segment's
position with the worm's color and a freshly drawn non-reserved type,
using id `nextFoodId++`.  The created items are also returned. -/
def dropFoodOnDeath : List Pt → ℕ → ℚ → FoodSys → FoodSys × List Food
  | [], _, _, st => (st, [])
  | seg :: rest, index, c, st =>
    if index % FOOD_DROP_INTERVAL = 0 then
      let q := st.rng.next
      let st1 : FoodSys := ⟨st.food, st.nextFoodId, q.2⟩
      if q.1 < FOOD_DROP_CHANCE then
        if st1.food.length < MAX_FOOD then
          let t := dropTypeDraw 1000000 st1.rng
          let item : Food :=
            ⟨st1.nextFoodId, seg.x, seg.y, seg.z, c, FOOD_RADIUS, t.1⟩
          let r := dropFoodOnDeath rest (index + 1) c
            ⟨st1.food ++ [item], st1.nextFoodId + 1, t.2⟩
          (r.1, item :: r.2)
        else dropFoodOnDeath rest (index + 1) c st1
      else dropFoodOnDeath rest (index + 1) c st1
    else dropFoodOnDeath rest (index + 1) c st

lemma getRandomSpawnPositionXY_stream (m : ℚ) (r : Rng) :
    (getRandomSpawnPositionXY m r).2.stream = r.stream := rfl

lemma findClearPos_stream (n : ℕ) (fl : List Food) (ps : List Player)
    (r : Rng) : (findClearPos n fl ps r).2.stream = r.stream := by
  induction n generalizing r with
  | zero => rfl
  | succ n ih =>
      rw [findClearPos]
      split
      · rfl
      · exact (ih _).trans rfl

/-- For a random draw `q ∈ [0, 1)`, the spawned type
`⌊q * FOOD_IMAGE_TYPES⌋ + 1` lies in `[1, FOOD_IMAGE_TYPES]`. -/
lemma spawnType_bounds (q : ℚ) (h0 : 0 ≤ q) (h1 : q < 1) :
    1 ≤ ⌊q * (FOOD_IMAGE_TYPES : ℚ)⌋ + 1 ∧
    ⌊q * (FOOD_IMAGE_TYPES : ℚ)⌋ + 1 ≤ FOOD_IMAGE_TYPES := by
  have h36 : ((FOOD_IMAGE_TYPES : ℤ) : ℚ) = 36 := by norm_num [FOOD_IMAGE_TYPES]
  have hI : FOOD_IMAGE_TYPES = 36 := rfl
  rw [h36]
  have ha : (0:ℤ) ≤ ⌊q * 36⌋ := Int.floor_nonneg.mpr (by positivity)
  have hb : ⌊q * 36⌋ < 36 := by
    rw [Int.floor_lt]
    push_cast
    nlinarith
  omega

/-- Claim C2 (amended): every item created by `spawnFood` gets a type in
the full range `1..FOOD_IMAGE_TYPES` (for random draws in `[0, 1)`); this
range includes the three reserved power-up values. -/
theorem claim_C2_amended (count : ℕ) (ps : List Player) (st : FoodSys)
    (h : ∀ m : ℕ, 0 ≤ st.rng.stream m ∧ st.rng.stream m < 1) :
    ∀ f ∈ (spawnFood count ps st).2,
      1 ≤ f.type ∧ f.type ≤ FOOD_IMAGE_TYPES := by
  induction count generalizing st with
  | zero => intro f hf; simp [spawnFood] at hf
  | succ n ih =>
      intro f hf
      by_cases hcap : MAX_FOOD ≤ st.food.length
      · rw [spawnFood, if_pos hcap] at hf
        simp at hf
      · rw [spawnFood, if_neg hcap] at hf
        have hfcp : ∀ k, 0 ≤ (findClearPos 15 st.food ps st.rng).2.stream k ∧
            (findClearPos 15 st.food ps st.rng).2.stream k < 1 := by
          rw [findClearPos_stream]; exact h
        generalize hgen : findClearPos 15 st.food ps st.rng = fc at hf hfcp
        rcases hq : fc.1 with _ | pos
        · simp only [hq, List.mem_cons] at hf
          rcases hf with rfl | hf
          · exact spawnType_bounds _ (hfcp _).1 (hfcp _).2
          · exact ih _ hfcp f hf
        · simp only [hq, List.mem_cons] at hf
          rcases hf with rfl | hf
          · exact spawnType_bounds _ (hfcp _).1 (hfcp _).2
          · exact ih _ hfcp f hf

/-- A random stream that always returns `29/72` (so
`Math.floor(0.402777… * 36) + 1 = 15`). -/
def rngDemo : Rng := ⟨fun _ => 29/72, 0⟩

/-- An empty world about to spawn its first food item. -/
def sysDemo : FoodSys := ⟨[], 0, rngDemo⟩

/-- The item `spawnFood(1)` creates from `sysDemo`: the first random
position attempt is clear (the world is empty), the type draw yields
`⌊29/72 · 36⌋ + 1 = 15` and the hue draw yields `29/72 · 360 = 145`. -/
def foodItemDemo : Food := ⟨0, 3653/3, 3653/3, 0, 145, 12, 15⟩

lemma spawnDemo_eval : (spawnFood 1 [] sysDemo).2 = [foodItemDemo] := by
  norm_num [spawnFood, sysDemo, rngDemo, MAX_FOOD, findClearPos,
    getRandomSpawnPositionXY, getRandomColor, Rng.next, isSpawnPositionClear,
    FOOD_IMAGE_TYPES, FOOD_RADIUS, WORLD_WIDTH, WORLD_HEIGHT, WORLD_GROUND_Z,
    foodItemDemo]

/-- Claim C2 (counterexample): `spawnFood` can produce a food item whose
type is the reserved speed-boost value `FOOD_TYPE_POWER = 15` — the type
is drawn uniformly from `1..36`, which contains all three reserved
power-up values (indeed this is the only way power-up food enters the
world, since death drops exclude the reserved types). -/
theorem claim_C2_counterexample :
    (spawnFood 1 [] sysDemo).2.map Food.type = [FOOD_TYPE_POWER] := by
  rw [spawnDemo_eval]
  rfl

/-- Claim C2 (witness): the amended range statement evaluated on the item
spawned from the demo state. -/
theorem claim_C2_witness :
    1 ≤ foodItemDemo.type ∧ foodItemDemo.type ≤ FOOD_IMAGE_TYPES :=
  claim_C2_amended 1 [] sysDemo
    (fun _ => by constructor <;> norm_num [sysDemo, rngDemo])
    foodItemDemo (by rw [spawnDemo_eval]; exact List.mem_singleton.mpr rfl)

/-! ## Food-id uniqueness across the process lifetime (claim C8).

The only operations that touch the food list during the process lifetime
are `spawnFood` pushes (initial fill and consumption-driven replacement),
the death drops of `killPlayer`, and removal by index (the `splice` in
`checkCollisions`); `nextFoodId` is a module-global counter that is never
reset.  A trace is an arbitrary interleaving of these operations. -/

inductive FoodOp where
  | spawn (count : ℕ) (ps : List Player)
  | dropDeath (segs : List Pt) (color : ℚ)
  | consume (j : ℕ)

/-- One food-list operation; besides the new state it returns the items
created by the operation (consumption creates none). -/
def stepOp (st : FoodSys) : FoodOp → FoodSys × List Food
  | FoodOp.spawn c ps => spawnFood c ps st
  | FoodOp.dropDeath segs col => dropFoodOnDeath segs 0 col st
  | FoodOp.consume j => (⟨st.food.eraseIdx j, st.nextFoodId, st.rng⟩, [])

/-- A whole trace of food-list operations, collecting every item ever
created. -/
def runOps (st : FoodSys) : List FoodOp → FoodSys × List Food
  | [] => (st, [])
  | op :: ops =>
    let r := stepOp st op
    let r2 := runOps r.1 ops
    (r2.1, r.2 ++ r2.2)

lemma spawnFood_ids (n : ℕ) (ps : List Player) (st : FoodSys) :
    (spawnFood n ps st).2.map Food.id
      = List.range' st.nextFoodId (spawnFood n ps st).2.length ∧
    (spawnFood n ps st).1.nextFoodId
      = st.nextFoodId + (spawnFood n ps st).2.length ∧
    ∀ f ∈ (spawnFood n ps st).1.food,
      f ∈ st.food ∨ f ∈ (spawnFood n ps st).2 := by
  induction n generalizing st with
  | zero =>
      refine ⟨rfl, rfl, ?_⟩
      intro f hf
      exact Or.inl hf
  | succ n ih =>
      by_cases hcap : MAX_FOOD ≤ st.food.length
      · rw [spawnFood, if_pos hcap]
        refine ⟨rfl, rfl, fun f hf => Or.inl hf⟩
      · rw [spawnFood, if_neg hcap]
        dsimp only
        refine ⟨?_, ?_, ?_⟩
        · simp only [List.map_cons, List.length_cons, List.range'_succ]
          congr 1
          exact (ih _).1
        · simp only [List.length_cons]
          refine ((ih _).2.1).trans ?_
          dsimp only
          omega
        · intro f hf
          rcases (ih _).2.2 f hf with hf1 | hf1
          · rcases List.mem_append.mp hf1 with hf2 | hf2
            · exact Or.inl hf2
            · exact Or.inr (List.mem_cons.mpr
                (Or.inl (List.mem_singleton.mp hf2)))
          · exact Or.inr (List.mem_cons.mpr (Or.inr hf1))

lemma dropFoodOnDeath_ids (segs : List Pt) (index : ℕ) (c : ℚ)
    (st : FoodSys) :
    (dropFoodOnDeath segs index c st).2.map Food.id
      = List.range' st.nextFoodId (dropFoodOnDeath segs index c st).2.length ∧
    (dropFoodOnDeath segs index c st).1.nextFoodId
      = st.nextFoodId + (dropFoodOnDeath segs index c st).2.length ∧
    ∀ f ∈ (dropFoodOnDeath segs index c st).1.food,
      f ∈ st.food ∨ f ∈ (dropFoodOnDeath segs index c st).2 := by
  induction segs generalizing index st with
  | nil =>
      refine ⟨rfl, rfl, fun f hf => Or.inl hf⟩
  | cons seg rest ih =>
      by_cases hint : index % FOOD_DROP_INTERVAL = 0
      · rw [dropFoodOnDeath, if_pos hint]
        by_cases hchance : (st.rng.next).1 < FOOD_DROP_CHANCE
        · rw [if_pos hchance]
          by_cases hlen : st.food.length < MAX_FOOD
          · rw [if_pos hlen]
            dsimp only
            refine ⟨?_, ?_, ?_⟩
            · simp only [List.map_cons, List.length_cons, List.range'_succ]
              congr 1
              exact (ih (index + 1) _).1
            · simp only [List.length_cons]
              refine ((ih (index + 1) _).2.1).trans ?_
              dsimp only
              omega
            · intro f hf
              rcases (ih (index + 1) _).2.2 f hf with hf1 | hf1
              · rcases List.mem_append.mp hf1 with hf2 | hf2
                · exact Or.inl hf2
                · exact Or.inr (List.mem_cons.mpr
                    (Or.inl (List.mem_singleton.mp hf2)))
              · exact Or.inr (List.mem_cons.mpr (Or.inr hf1))
          · rw [if_neg hlen]
            exact ih (index + 1) _
        · rw [if_neg hchance]
          exact ih (index + 1) _
      · rw [dropFoodOnDeath, if_neg hint]
        exact ih (index + 1) st

lemma stepOp_ids (st : FoodSys) (op : FoodOp) :
    (stepOp st op).2.map Food.id
      = List.range' st.nextFoodId (stepOp st op).2.length ∧
    (stepOp st op).1.nextFoodId
      = st.nextFoodId + (stepOp st op).2.length ∧
    ∀ f ∈ (stepOp st op).1.food, f ∈ st.food ∨ f ∈ (stepOp st op).2 := by
  match op with
  | FoodOp.spawn c ps => exact spawnFood_ids c ps st
  | FoodOp.dropDeath segs col => exact dropFoodOnDeath_ids segs 0 col st
  | FoodOp.consume j =>
      refine ⟨rfl, rfl, fun f hf => Or.inl ?_⟩
      exact List.mem_of_mem_eraseIdx hf

lemma runOps_ids (ops : List FoodOp) (st : FoodSys) :
    (runOps st ops).2.map Food.id
      = List.range' st.nextFoodId (runOps st ops).2.length ∧
    (runOps st ops).1.nextFoodId
      = st.nextFoodId + (runOps st ops).2.length ∧
    ∀ f ∈ (runOps st ops).1.food, f ∈ st.food ∨ f ∈ (runOps st ops).2 := by
  induction ops generalizing st with
  | nil => exact ⟨rfl, rfl, fun f hf => Or.inl hf⟩
  | cons op ops ih =>
      rw [runOps]
      dsimp only
      obtain ⟨s1, s2, s3⟩ := stepOp_ids st op
      obtain ⟨r1, r2, r3⟩ := ih (stepOp st op).1
      refine ⟨?_, ?_, ?_⟩
      · rw [List.map_append, s1, r1, s2, List.length_append]
        have h := List.range'_append st.nextFoodId ((stepOp st op).2.length)
          ((runOps (stepOp st op).1 ops).2.length) 1
        rw [one_mul] at h
        rw [Nat.add_comm ((stepOp st op).2.length)
          ((runOps (stepOp st op).1 ops).2.length)]
        exact h
      · rw [r2, s2, List.length_append]
        omega
      · intro f hf
        rcases r3 f hf with hf1 | hf1
        · rcases s3 f hf1 with hf2 | hf2
          · exact Or.inl hf2
          · exact Or.inr (List.mem_append.mpr (Or.inl hf2))
        · exact Or.inr (List.mem_append.mpr (Or.inr hf1))

/-- Claim C8: starting from the initial empty food state with counter 0,
for every interleaving of `spawnFood` calls, death drops and
consumption-driven removals, the ids of all food items ever created are
pairwise distinct (they are exactly consecutive counter values), and every
item in the current food list is one of the created items — so no two
food items ever carry the same id and a consumed id is never reused. -/
theorem claim_C8 (r : Rng) (ops : List FoodOp) :
    ((runOps ⟨[], 0, r⟩ ops).2.map Food.id).Nodup ∧
    ∀ f ∈ (runOps ⟨[], 0, r⟩ ops).1.food,
      f.id ∈ (runOps ⟨[], 0, r⟩ ops).2.map Food.id := by
  obtain ⟨h1, _, h3⟩ := runOps_ids ops ⟨[], 0, r⟩
  refine ⟨?_, ?_⟩
  · rw [h1]
    exact List.nodup_range' ..
  · intro f hf
    rcases h3 f hf with hf1 | hf1
    · simp at hf1
    · exact List.mem_map_of_mem Food.id hf1

/-- Claim C8 (witness): the uniqueness statement evaluated on a concrete
trace — a spawn of two items, a consumption, and a death drop. -/
theorem claim_C8_witness :
    ((runOps ⟨[], 0, rngDemo⟩
        [FoodOp.spawn 2 [], FoodOp.consume 0,
         FoodOp.dropDeath [⟨1, 2, 0⟩] 7]).2.map Food.id).Nodup :=
  (claim_C8 rngDemo
    [FoodOp.spawn 2 [], FoodOp.consume 0,
     FoodOp.dropDeath [⟨1, 2, 0⟩] 7]).1

/-! ## Food-collision pass of `checkCollisions` (lines 509–588).

The per-worm food loop: scan the food list backward from the last index,
remove every item within the effective pickup radius, award score, spawn
one replacement, activate power-ups, and stop after the first hit unless
the worm's magnet is (by then) active.  `eatenFoodThisTick` records are
`(food id, eater id, food type)` triples. -/

structure EatenRec where
  id : ℕ
  eaterId : ℕ
  type : ℤ
deriving DecidableEq

/-- Result of the per-worm food pass: the updated worm, the updated food
state, the accumulated `eatenFoodThisTick` records and the
`ateFoodThisTickFlag`. -/
structure EatResult where
  worm : Worm
  sys : FoodSys
  acc : List EatenRec
  ate : Bool

/-- Lines 546–574: the worm-side effects of eating item `f` — score
reward, speed-boost activation with fresh expiry, magnet-flag activation,
and clearing of a bot's matching food target. -/
def wormAfterEat (now : ℚ) (isBot : Bool) (w : Worm) (f : Food) : Worm :=
  let w1 := { w with score := w.score + FOOD_SCORE }
  let w2 :=
    if f.type = FOOD_TYPE_POWER then
      { w1 with hasSpeedBoost := true,
                speedBoostEndTime := now + POWER_UP_DURATION_MS }
    else if f.type = FOOD_TYPE_MAGNET then
      { w1 with isMagnetActive := true }
    else w1
  if isBot = true then
    match w2.botState with
    | some bs =>
      if bs.targetFoodId = some f.id then
        { w2 with botState := some ⟨none, 0⟩ }
      else w2
    | none => w2
  else w2

/-- The body of one iteration of the backward food loop (lines 529–580)
at index `j`: on a hit, splice out the item, record it, award score, spawn
one replacement and apply the worm-side effects; the second component is
`true` when the loop continues to `j - 1` (i.e. unless the source hits
`break`, which it does exactly when the worm's — possibly just updated —
magnet flag is off after a hit). -/
def eatStep (now : ℚ) (ps : List Player) (isBot : Bool) (pid : ℕ)
    (head : Pt) (j : ℕ) (w : Worm) (st : FoodSys) (acc : List EatenRec)
    (ate : Bool) : EatResult × Bool :=
  match st.food.get? j with
  | none => (⟨w, st, acc, ate⟩, true)
  | some f =>
    let dx := head.x - f.x
    let dy := head.y - f.y
    let distSq := dx * dx + dy * dy
    let effR :=
      if w.isMagnetActive = true then
        WORM_SEGMENT_RADIUS + FOOD_RADIUS * MAGNET_RADIUS_MULTIPLIER
      else WORM_SEGMENT_RADIUS + FOOD_RADIUS
    if distSq < effR ^ 2 then
      let st1 : FoodSys := ⟨st.food.eraseIdx j, st.nextFoodId, st.rng⟩
      let acc1 := acc ++ [⟨f.id, pid, f.type⟩]
      let st2 := (spawnFood 1 ps st1).1
      let w3 := wormAfterEat now isBot w f
      (⟨w3, st2, acc1, true⟩, w3.isMagnetActive)
    else (⟨w, st, acc, ate⟩, true)

/-- Lines 528–581: the backward loop `for (let j = food.length - 1; j >=
0; j--)` for one worm.  `j` is the current index; items the loop appends
(replacement spawns) land at indices that are never revisited.  The
deferred magnet-expiry timer (lines 558–564) acts outside this pass and is
not part of the per-tick state change. -/
def eatLoop (now : ℚ) (ps : List Player) (isBot : Bool) (pid : ℕ)
    (head : Pt) : ℕ → Worm → FoodSys → List EatenRec → Bool → EatResult
  | 0, w, st, acc, ate => (eatStep now ps isBot pid head 0 w st acc ate).1
  | j + 1, w, st, acc, ate =>
    let s := eatStep now ps isBot pid head (j + 1) w st acc ate
    if s.2 = true then
      eatLoop now ps isBot pid head j s.1.worm s.1.sys s.1.acc s.1.ate
    else s.1

/-- Lines 520–587: the whole food-collision body for one living worm —
run the backward loop from index `food.length - 1` (skipped when the worm
has no head or there is no food) and then remove the tail segment if
nothing was eaten and the worm is longer than its initial length. -/
def processWormFood (now : ℚ) (ps : List Player) (isBot : Bool) (pid : ℕ)
    (w : Worm) (st : FoodSys) (acc : List EatenRec) : EatResult :=
  match w.segments with
  | [] => ⟨w, st, acc, false⟩
  | head :: _ =>
    let r :=
      match st.food.length with
      | 0 => (⟨w, st, acc, false⟩ : EatResult)
      | n + 1 => eatLoop now ps isBot pid head n w st acc false
    let w2 :=
      if r.ate = false ∧ WORM_INITIAL_LENGTH < r.worm.segments.length then
        { r.worm with segments := r.worm.segments.dropLast }
      else r.worm
    ⟨w2, r.sys, r.acc, r.ate⟩

lemma magnet_ne_power : FOOD_TYPE_MAGNET ≠ FOOD_TYPE_POWER := by
  norm_num [FOOD_TYPE_MAGNET, FOOD_TYPE_POWER]

lemma wormAfterEat_segments (now : ℚ) (b : Bool) (w : Worm) (f : Food) :
    (wormAfterEat now b w f).segments = w.segments := by
  rw [wormAfterEat]
  cases hbs : w.botState with
  | none =>
      by_cases hb : b = true <;> by_cases h1 : f.type = FOOD_TYPE_POWER <;>
        by_cases h2 : f.type = FOOD_TYPE_MAGNET <;>
          simp [hb, h1, h2, hbs, magnet_ne_power]
  | some bs =>
      by_cases hb : b = true <;> by_cases h1 : f.type = FOOD_TYPE_POWER <;>
        by_cases h2 : f.type = FOOD_TYPE_MAGNET <;>
          by_cases h3 : bs.targetFoodId = some f.id <;>
            simp [hb, h1, h2, h3, hbs, magnet_ne_power]

/-- Eating a non-magnet food item does not change the magnet flag. -/
lemma wormAfterEat_magnet (now : ℚ) (b : Bool) (w : Worm) (f : Food)
    (hf : f.type ≠ FOOD_TYPE_MAGNET) :
    (wormAfterEat now b w f).isMagnetActive = w.isMagnetActive := by
  rw [wormAfterEat]
  cases hbs : w.botState with
  | none =>
      by_cases hb : b = true <;> by_cases h1 : f.type = FOOD_TYPE_POWER <;>
        simp [hb, h1, hf, hbs, magnet_ne_power]
  | some bs =>
      by_cases hb : b = true <;> by_cases h1 : f.type = FOOD_TYPE_POWER <;>
        by_cases h3 : bs.targetFoodId = some f.id <;>
          simp [hb, h1, h3, hf, hbs, magnet_ne_power]

/-- The food loop never touches the worm's segment chain. -/
lemma eatStep_worm_segments (now : ℚ) (ps : List Player) (isBot : Bool)
    (pid : ℕ) (head : Pt) (j : ℕ) (w : Worm) (st : FoodSys)
    (acc : List EatenRec) (ate : Bool) :
    (eatStep now ps isBot pid head j w st acc ate).1.worm.segments
      = w.segments := by
  rw [eatStep]
  cases hg : st.food.get? j with
  | none => rfl
  | some f =>
      dsimp only
      by_cases hhit : (head.x - f.x) * (head.x - f.x)
          + (head.y - f.y) * (head.y - f.y)
          < (if w.isMagnetActive = true then
              WORM_SEGMENT_RADIUS + FOOD_RADIUS * MAGNET_RADIUS_MULTIPLIER
            else WORM_SEGMENT_RADIUS + FOOD_RADIUS) ^ 2
      · rw [if_pos hhit]
        exact wormAfterEat_segments now isBot w f
      · rw [if_neg hhit]

/-- The food loop never touches the worm's segment chain. -/
lemma eatLoop_worm_segments (now : ℚ) (ps : List Player) (isBot : Bool)
    (pid : ℕ) (head : Pt) :
    ∀ (j : ℕ) (w : Worm) (st : FoodSys) (acc : List EatenRec) (ate : Bool),
      (eatLoop now ps isBot pid head j w st acc ate).worm.segments
        = w.segments := by
  intro j
  induction j with
  | zero =>
      intro w st acc ate
      rw [eatLoop]
      exact eatStep_worm_segments now ps isBot pid head 0 w st acc ate
  | succ j ih =>
      intro w st acc ate
      rw [eatLoop]
      by_cases hc :
          (eatStep now ps isBot pid head (j + 1) w st acc ate).2 = true
      · rw [if_pos hc]
        exact (ih _ _ _ _).trans
          (eatStep_worm_segments now ps isBot pid head (j + 1) w st acc ate)
      · rw [if_neg hc]
        exact eatStep_worm_segments now ps isBot pid head (j + 1) w st acc ate

/-- With no food in the world the pass eats nothing (the backward loop
body never runs). -/
lemma processWormFood_ate_empty (now : ℚ) (ps : List Player) (isBot : Bool)
    (pid : ℕ) (w : Worm) (st : FoodSys) (acc : List EatenRec)
    (hf : st.food = []) :
    (processWormFood now ps isBot pid w st acc).ate = false := by
  rw [processWormFood]
  match hseg : w.segments with
  | [] => rfl
  | head :: rest =>
      rw [hf]
      rfl

/-- Claim C5: segment-count growth law.  For a living worm, one tick
(movement update followed by the per-worm food-collision body): if the
worm consumed at least one food item (`ate = true`) its segment count
grows by exactly one (head added, no tail removed); if it consumed
nothing and its count was at or above the initial spawn length, its
segment count is unchanged (head added, tail removed). -/
theorem claim_C5 (now : ℚ) (cosO sinO : ℚ → ℚ) (ps : List Player)
    (isBot : Bool) (pid : ℕ) (w : Worm) (st : FoodSys) (acc : List EatenRec)
    (halive : w.isAlive = true) (hne : w.segments ≠ []) :
    ((processWormFood now ps isBot pid (updateWorm now cosO sinO w) st
        acc).ate = true →
      (processWormFood now ps isBot pid (updateWorm now cosO sinO w) st
        acc).worm.segments.length = w.segments.length + 1) ∧
    ((processWormFood now ps isBot pid (updateWorm now cosO sinO w) st
        acc).ate = false →
      WORM_INITIAL_LENGTH ≤ w.segments.length →
      (processWormFood now ps isBot pid (updateWorm now cosO sinO w) st
        acc).worm.segments.length = w.segments.length) := by
  have hlen : (updateWorm now cosO sinO w).segments.length
      = w.segments.length + 1 :=
    updateWorm_segments now cosO sinO w halive hne
  rw [processWormFood]
  match hseg : (updateWorm now cosO sinO w).segments with
  | [] =>
      rw [hseg] at hlen
      simp at hlen
  | head :: rest =>
      rw [hseg] at hlen
      cases hfl : st.food.length with
      | zero =>
          dsimp only
          constructor
          · intro hate
            simp at hate
          · intro _ hinit
            have hcond : (false = false ∧ WORM_INITIAL_LENGTH
                < (updateWorm now cosO sinO w).segments.length) := by
              refine ⟨rfl, ?_⟩
              rw [hseg, hlen]
              have : WORM_INITIAL_LENGTH = 100 := rfl
              omega
            rw [if_pos hcond, hseg]
            simp only [List.length_dropLast]
            rw [hseg] at hcond
            omega
      | succ n =>
          dsimp only
          have hrseg := eatLoop_worm_segments now ps isBot pid head n
            (updateWorm now cosO sinO w) st acc false
          constructor
          · intro hate
            rw [if_neg (by simp [hate])]
            rw [hrseg, hseg]
            exact hlen
          · intro hate hinit
            have hcond : ((eatLoop now ps isBot pid head n
                (updateWorm now cosO sinO w) st acc false).ate = false ∧
                WORM_INITIAL_LENGTH < (eatLoop now ps isBot pid head n
                  (updateWorm now cosO sinO w) st acc
                  false).worm.segments.length) := by
              refine ⟨hate, ?_⟩
              rw [hrseg, hseg, hlen]
              have : WORM_INITIAL_LENGTH = 100 := rfl
              omega
            rw [if_pos hcond]
            dsimp only
            rw [List.length_dropLast, hrseg, hseg, hlen]
            omega

/-- A living worm at exactly the initial spawn length. -/
def wormLongDemo : Worm :=
  ⟨List.replicate 100 ⟨0, 0, 0⟩, 0, 0, 0, 0, true, false, 0, false, none⟩

/-- A food state with no food at all. -/
def sysEmptyDemo : FoodSys := ⟨[], 0, rngDemo⟩

/-- Claim C5 (witness): a living worm of exactly the initial length that
eats nothing (no food exists) ends the tick with an unchanged segment
count. -/
theorem claim_C5_witness :
    (processWormFood 0 [] false 0 (updateWorm 0 (fun _ => 0) (fun _ => 0)
      wormLongDemo) sysEmptyDemo []).worm.segments.length
      = wormLongDemo.segments.length :=
  (claim_C5 0 (fun _ => 0) (fun _ => 0) [] false 0 wormLongDemo sysEmptyDemo
      [] rfl
      (by apply List.ne_nil_of_length_pos; simp [wormLongDemo])).2
    (processWormFood_ate_empty 0 [] false 0 _ sysEmptyDemo [] rfl)
    (by simp [wormLongDemo, WORM_INITIAL_LENGTH])

/-- One iteration of the food loop for a worm whose magnet is off, when
the item at the scanned index (if any) is not of the magnet type: either
nothing happens and the loop continues, or exactly one record is appended
and the loop breaks. -/
lemma eatStep_nonmagnet (now : ℚ) (ps : List Player) (isBot : Bool)
    (pid : ℕ) (head : Pt) (j : ℕ) (w : Worm) (st : FoodSys)
    (acc : List EatenRec) (ate : Bool)
    (hmag : w.isMagnetActive = false)
    (hty : ∀ f, st.food.get? j = some f → f.type ≠ FOOD_TYPE_MAGNET) :
    ((eatStep now ps isBot pid head j w st acc ate).1
        = ⟨w, st, acc, ate⟩ ∧
      (eatStep now ps isBot pid head j w st acc ate).2 = true) ∨
    ((eatStep now ps isBot pid head j w st acc ate).1.acc.length
        = acc.length + 1 ∧
      (eatStep now ps isBot pid head j w st acc ate).2 = false) := by
  rw [eatStep]
  cases hg : st.food.get? j with
  | none => exact Or.inl ⟨rfl, rfl⟩
  | some f =>
      dsimp only
      by_cases hhit : (head.x - f.x) * (head.x - f.x)
          + (head.y - f.y) * (head.y - f.y)
          < (if w.isMagnetActive = true then
              WORM_SEGMENT_RADIUS + FOOD_RADIUS * MAGNET_RADIUS_MULTIPLIER
            else WORM_SEGMENT_RADIUS + FOOD_RADIUS) ^ 2
      · rw [if_pos hhit]
        refine Or.inr ⟨?_, ?_⟩
        · simp
        · rw [wormAfterEat_magnet now isBot w f (hty f hg)]
          exact hmag
      · rw [if_neg hhit]
        exact Or.inl ⟨rfl, rfl⟩

/-- Over the whole backward scan, a worm whose magnet is off and that
never encounters magnet-type food removes at most one item (appends at
most one eaten record). -/
lemma eatLoop_nonmagnet (now : ℚ) (ps : List Player) (isBot : Bool)
    (pid : ℕ) (head : Pt) :
    ∀ (j : ℕ) (w : Worm) (st : FoodSys) (acc : List EatenRec) (ate : Bool),
      w.isMagnetActive = false →
      (∀ i ≤ j, ∀ f, st.food.get? i = some f →
        f.type ≠ FOOD_TYPE_MAGNET) →
      (eatLoop now ps isBot pid head j w st acc ate).acc.length
        ≤ acc.length + 1 := by
  intro j
  induction j with
  | zero =>
      intro w st acc ate hmag hty
      rw [eatLoop]
      rcases eatStep_nonmagnet now ps isBot pid head 0 w st acc ate hmag
        (hty 0 (le_refl 0)) with ⟨h1, _⟩ | ⟨h1, _⟩
      · rw [h1]
        exact Nat.le_succ _
      · rw [h1]
  | succ j ih =>
      intro w st acc ate hmag hty
      rw [eatLoop]
      rcases eatStep_nonmagnet now ps isBot pid head (j + 1) w st acc ate hmag
        (hty (j + 1) (le_refl _)) with ⟨h1, h2⟩ | ⟨h1, h2⟩
      · rw [if_pos h2, h1]
        exact ih w st acc ate hmag
          (fun i hi f hf => hty i (hi.trans (Nat.le_succ _)) f hf)
      · rw [if_neg (by rw [h2]; exact Bool.false_ne_true), h1]

/-- Claim C6 (amended): during the food-collision pass, a worm whose
magnet is not active removes at most one food item — provided no
magnet-type food is in the list when its scan starts.  (If the worm eats a
magnet-type item mid-scan, the flag flips before the `break` check, so the
worm may keep consuming in the same tick; see the counterexample.) -/
theorem claim_C6_amended (now : ℚ) (ps : List Player) (isBot : Bool)
    (pid : ℕ) (w : Worm) (st : FoodSys) (acc : List EatenRec)
    (hmag : w.isMagnetActive = false)
    (hfood : ∀ f ∈ st.food, f.type ≠ FOOD_TYPE_MAGNET) :
    (processWormFood now ps isBot pid w st acc).acc.length
      ≤ acc.length + 1 := by
  rw [processWormFood]
  match hseg : w.segments with
  | [] => exact Nat.le_succ _
  | head :: rest =>
      cases hfl : st.food.length with
      | zero => exact Nat.le_succ _
      | succ n =>
          dsimp only
          exact eatLoop_nonmagnet now ps isBot pid head n w st acc false hmag
            (fun i _ f hf => hfood f (List.get?_mem hf))

/-- A cosmetic food item 5 units from the demo worm's head. -/
def foodPlainDemo : Food := ⟨0, 5, 0, 0, 0, 12, 1⟩

/-- A magnet-type (type 7) food item exactly at the demo worm's head. -/
def foodMagnetDemo : Food := ⟨1, 0, 0, 0, 0, 12, 7⟩

/-- A living one-segment worm at the origin whose magnet is NOT active. -/
def wormMagCexDemo : Worm :=
  ⟨[⟨0, 0, 0⟩], 0, 0, 0, 0, true, false, 0, false, none⟩

/-- Two food items in range of the worm's head; the backward scan reaches
the magnet-type item first. -/
def sysMagCexDemo : FoodSys :=
  ⟨[foodPlainDemo, foodMagnetDemo], 2, ⟨fun n => (n : ℚ) / 100, 0⟩⟩

/-- Claim C6 (counterexample): a worm whose magnet is not active at the
start of the food-collision pass removes TWO food items in one tick: the
backward scan first eats the magnet-type item, which sets
`isMagnetActive` before the `break` check (`if (!worm.isMagnetActive)
break`), so the loop continues and consumes the second item as well. -/
theorem claim_C6_counterexample :
    wormMagCexDemo.isMagnetActive = false ∧
    (processWormFood 0 [] false 0 wormMagCexDemo sysMagCexDemo []).acc.length
      = 2 := by
  refine ⟨rfl, ?_⟩
  norm_num [processWormFood, eatLoop, eatStep, wormAfterEat, spawnFood,
    findClearPos, getRandomSpawnPositionXY, getRandomColor, Rng.next,
    isSpawnPositionClear, wormMagCexDemo, sysMagCexDemo, foodPlainDemo,
    foodMagnetDemo, MAX_FOOD, FOOD_RADIUS, WORM_SEGMENT_RADIUS,
    MAGNET_RADIUS_MULTIPLIER, MIN_FOOD_SPAWN_DISTANCE_SQ, FOOD_IMAGE_TYPES,
    FOOD_TYPE_POWER, FOOD_TYPE_MAGNET, FOOD_SCORE, POWER_UP_DURATION_MS,
    WORLD_WIDTH, WORLD_HEIGHT, WORLD_GROUND_Z, WORM_INITIAL_LENGTH]

/-- A single cosmetic (non-magnet) food item in range. -/
def sysPlainDemo : FoodSys :=
  ⟨[foodPlainDemo], 1, ⟨fun n => (n : ℚ) / 100, 0⟩⟩

/-- Claim C6 (witness): the amended bound evaluated for the non-magnet
demo worm scanning a list without magnet-type food. -/
theorem claim_C6_witness :
    (processWormFood 0 [] false 0 wormMagCexDemo sysPlainDemo []).acc.length
      ≤ ([] : List EatenRec).length + 1 :=
  claim_C6_amended 0 [] false 0 wormMagCexDemo sysPlainDemo [] rfl
    (by
      intro f hf
      rw [show sysPlainDemo.food = [foodPlainDemo] from rfl,
        List.mem_singleton] at hf
      rw [hf]
      norm_num [foodPlainDemo, FOOD_TYPE_MAGNET])

end SnakeServer
